import Mathlib

/-!
Shallow embedding of the geolonia/mbtiles_tool core (vector-tile codec,
clipping, tile addressing, extent splitting, gzip passthrough) together
with proofs about the embedded functions.

Machine integers are modelled as `Nat` (for `u32`/`u64`) and `Int` (for
`i32`), with explicit reductions modulo `2 ^ 32` / `2 ^ 64` at the points
where the Rust code wraps or reinterprets bit patterns.
-/

/-- Reinterpret an `i32` value (an integer, expected in `[-2^31, 2^31)`)
as a `u32` bit pattern, as Rust's `as u32` cast does. -/
def toU32 (n : Int) : Nat := (n % (2 ^ 32 : Int)).toNat

/-- Reinterpret a `u32` bit pattern (a natural number `< 2^32`) as an
`i32` value, as Rust's `as i32` cast does. -/
def toI32 (n : Nat) : Int := if n < 2 ^ 31 then (n : Int) else (n : Int) - 2 ^ 32

/-- Source `vector_tile_ops.rs`: `zz_enc(n: i32) -> u32` is
`((n << 1) ^ (n >> 31)) as u32`.  The arithmetic shift `n >> 31` of an
`i32` is `-1` for negative `n` and `0` otherwise; the `<< 1` discards
the bit shifted past position 31, i.e. multiplies by two modulo `2^32`. -/
def zz_enc (n : Int) : Nat := toU32 (n * 2) ^^^ toU32 (if n < 0 then -1 else 0)

/-- Source `vector_tile_ops.rs`: `zz_dec(n: u32) -> i32` is
`((n >> 1) as i32) ^ (-((n & 1) as i32))`, with the final xor performed
on the 32-bit pattern and reinterpreted as `i32`. -/
def zz_dec (u : Nat) : Int := toI32 ((u >>> 1) ^^^ toU32 (-((u &&& 1 : Nat) : Int)))

/-!
Tile addressing, from `tilebelt.rs`.  A tile is `(x, y, z)` over `u32`.
-/

/-- Source `tilebelt.rs`: `pub type Tile = (u32, u32, u32)`, in order `x, y, z`. -/
def Tile : Type := Nat × Nat × Nat

/-- Source `tilebelt.rs`: `tile_is_ancestor`.  `checked_shr` returns
`None` (hence `unwrap_or(0)` yields `0`) exactly when the shift amount
is at least 32. -/
def tile_is_ancestor (tile ancestor : Tile) : Bool :=
  if tile.2.2 < ancestor.2.2 then false
  else
    let z_diff := tile.2.2 - ancestor.2.2
    let sx := if 32 ≤ z_diff then 0 else tile.1 >>> z_diff
    let sy := if 32 ≤ z_diff then 0 else tile.2.1 >>> z_diff
    sx == ancestor.1 && sy == ancestor.2.1

/-- Source `tilebelt.rs`: `flip_x(tile) = (x, (1 << z) - 1 - y, z)`. -/
def flip_x (tile : Tile) : Tile := (tile.1, (1 <<< tile.2.2) - 1 - tile.2.1, tile.2.2)

/-!
Extent splitting, from `reader.rs`.  All fields are `u64`; the Rust
subtractions and sums wrap modulo `2^64` (release mode), which the
helpers below make explicit.
-/

/-- Source `reader.rs`: `EXTENT_CHUNK_TILE_COUNT = 2^15`. -/
def EXTENT_CHUNK_TILE_COUNT : Nat := 2 ^ 15

/-- Wrapping `u64` subtraction. -/
def sub64 (a b : Nat) : Nat := (a + (2 ^ 64 - b % 2 ^ 64)) % 2 ^ 64

/-- Wrapping `u64` addition. -/
def add64 (a b : Nat) : Nat := (a + b) % 2 ^ 64

/-- Wrapping `u64` multiplication. -/
def mul64 (a b : Nat) : Nat := (a * b) % 2 ^ 64

/-- Source `reader.rs`: `InputTileZoomExtent`. -/
structure InputTileZoomExtent where
  zoom : Nat
  min_x : Nat
  max_x : Nat
  min_y : Nat
  max_y : Nat
deriving Repr, DecidableEq

/-- Source `reader.rs`: `tile_count = ((max_x - min_x) + 1) * ((max_y - min_y) + 1)`. -/
def tile_count (e : InputTileZoomExtent) : Nat :=
  mul64 (add64 (sub64 e.max_x e.min_x) 1) (add64 (sub64 e.max_y e.min_y) 1)

/-- Source `reader.rs`: `split_tile_extent` splits the box into two
halves on the long axis, or returns the box unchanged when a half-side
would be at most 1. -/
def split_tile_extent (e : InputTileZoomExtent) : List InputTileZoomExtent :=
  let half_width := sub64 e.max_x e.min_x / 2
  let half_height := sub64 e.max_y e.min_y / 2
  if half_width ≤ 1 ∨ half_height ≤ 1 then [e]
  else if half_height < half_width then
    [⟨e.zoom, e.min_x, add64 e.min_x half_width, e.min_y, e.max_y⟩,
     ⟨e.zoom, add64 (add64 e.min_x half_width) 1, e.max_x, e.min_y, e.max_y⟩]
  else
    [⟨e.zoom, e.min_x, e.max_x, e.min_y, add64 e.min_y half_height⟩,
     ⟨e.zoom, e.min_x, e.max_x, add64 (add64 e.min_y half_height) 1, e.max_y⟩]

/-- Source `reader.rs`: `split_tile_extent_recursive`, with explicit
fuel because the Rust recursion does not terminate on extents that
exceed the chunk size but cannot be split (`split_tile_extent` then
returns the input unchanged and the function recurses on it forever).
`split_tile_extent` always returns one or two boxes; the match below
enumerates the `for e in extents { ret.extend(...) }` loop over them
(the empty and longer cases are unreachable). -/
def split_tile_extent_recursive : Nat → InputTileZoomExtent → Option (List InputTileZoomExtent)
  | 0, _ => none
  | fuel + 1, e =>
    if tile_count e ≤ EXTENT_CHUNK_TILE_COUNT then some [e]
    else
      match split_tile_extent e with
      | [a] => split_tile_extent_recursive fuel a
      | [a, b] =>
        match split_tile_extent_recursive fuel a, split_tile_extent_recursive fuel b with
        | some ra, some rb => some (ra ++ rb)
        | _, _ => none
      | _ => none

/-!
Gzip passthrough, from `converter.rs`.  The gzip encoder itself is
external (`flate2`); it is a parameter here.  `maybe_compress` reads
`data[0]`, and — only when that is not `0x1f` — `data[1]`; an
out-of-range read (Rust panic) is `none`.
-/

/-- Source `converter.rs`: `maybe_compress` compresses unless
`data[0] != 0x1f && data[1] != 0x8b` is false, i.e. it passes the data
through whenever `data[0] == 0x1f` or `data[1] == 0x8b`. -/
def maybe_compress (gzip : List Nat → List Nat) (data : List Nat) : Option (List Nat) :=
  match data with
  | [] => none
  | a :: rest =>
    if a = 31 then some (a :: rest)
    else
      match rest with
      | [] => none
      | b :: _ => if b = 139 then some data else some (gzip data)

/-!
Geometry primitives from `geom.rs` and the command codec plus
`scale_geometry` from `vector_tile_ops.rs`.
-/

/-- Source `geom.rs`: `Point { x: i32, y: i32 }`. -/
structure Point where
  x : Int
  y : Int
deriving Repr, DecidableEq

/-- Source `geom.rs`: `LineString { points: Vec<Point> }`. -/
structure LineString where
  points : List Point
deriving Repr, DecidableEq

/-- Source `geom.rs`: `pub type Polygon = LineString`. -/
def Polygon : Type := LineString

/-- Source `vector_tile_ops.rs`: `Command { id: u8, count: u32 }`. -/
structure Command where
  id : Nat
  count : Nat
deriving Repr, DecidableEq

/-- Source `vector_tile_ops.rs`: `parse_command(value) = { id: value & 0x7, count: value >> 3 }`. -/
def parse_command (value : Nat) : Command := ⟨value &&& 7, value >>> 3⟩

/-- Source `vector_tile_ops.rs`: `encode_command(cmd) = (cmd.id & 0x7) | (cmd.count << 3)`. -/
def encode_command (cmd : Command) : Nat := (cmd.id &&& 7) ||| (cmd.count <<< 3)

/-- Wrap an integer into the `i32` range `[-2^31, 2^31)`, as Rust
release-mode `i32` arithmetic does on overflow. -/
def wrap32 (n : Int) : Int := (n + 2 ^ 31) % 2 ^ 32 - 2 ^ 31

/-- Source `vector_tile_ops.rs`: `scale_geometry` rewrites the first
coordinate pair of a stream that starts with a MoveTo; reading `g[1]`
or `g[2]` past the end of the buffer is a Rust panic, modelled as
`none`.  The `u32` product `new_extent * rel_x` wraps modulo `2^32`
before the `as i32` cast, and the `i32` subtraction wraps via `wrap32`. -/
def scale_geometry (geometry : List Nat) (new_extent rel_x rel_y : Nat) :
    Option (Bool × List Nat) :=
  match geometry with
  | [] => some (false, [])
  | c :: rest =>
    if (parse_command c).id ≠ 1 then some (false, c :: rest)
    else
      match rest with
      | x :: y :: rest2 =>
        let orig_x := zz_dec x
        let orig_y := zz_dec y
        let scaled_x := wrap32 (orig_x - toI32 (new_extent * rel_x % 2 ^ 32))
        let scaled_y := wrap32 (orig_y - toI32 (new_extent * rel_y % 2 ^ 32))
        some (true, c :: zz_enc scaled_x :: zz_enc scaled_y :: rest2)
      | _ => none

/-!
Geometry decoders and encoders from `vector_tile_ops.rs`.  The Rust
decoders walk the `u32` stream with an index `i`; the embedding carries
the remaining suffix of the stream instead.  Out-of-bounds reads (Rust
panics) are `none`; the outer `while` loops do not advance the index on
command ids they do not handle, so the loops can hang — that is
modelled with explicit fuel, exhaustion being `none`.
-/

/-- Inner pair loop of `decode_points`: consume `n` coordinate pairs,
updating the cursor and pushing each point. -/
def decode_points_pairs :
    Nat → List Nat → Int → Int → List Point → Option (List Nat × Int × Int × List Point)
  | 0, rest, cx, cy, points => some (rest, cx, cy, points)
  | n + 1, x :: y :: rest, cx, cy, points =>
    decode_points_pairs n rest (cx + zz_dec x) (cy + zz_dec y)
      (points ++ [⟨cx + zz_dec x, cy + zz_dec y⟩])
  | _ + 1, _, _, _, _ => none

/-- Outer `while` loop of `decode_points`.  A command id other than 1
leaves the index unchanged in the Rust code (an infinite loop), modelled
by recursing on the same stream with less fuel. -/
def decode_points_loop :
    Nat → List Nat → Int → Int → List Point → Option (List Point)
  | _, [], _, _, points => some points
  | 0, _ :: _, _, _, _ => none
  | fuel + 1, c :: rest, cx, cy, points =>
    if (parse_command c).id = 1 then
      match decode_points_pairs (parse_command c).count rest cx cy points with
      | some (rest', cx', cy', points') => decode_points_loop fuel rest' cx' cy' points'
      | none => none
    else decode_points_loop fuel (c :: rest) cx cy points

/-- Source `vector_tile_ops.rs`: `decode_points`. -/
def decode_points (fuel : Nat) (geometry : List Nat) : Option (List Point) :=
  decode_points_loop fuel geometry 0 0 []

/-- Inner pair loop of `decode_linestrings` for a command with the given
id (1 = MoveTo flushes the buffer and restarts it, 2 = LineTo appends). -/
def decode_lines_pairs :
    Nat → Nat → List Nat → Int → Int → List Point → List LineString →
      Option (List Nat × Int × Int × List Point × List LineString)
  | _, 0, rest, cx, cy, buf, lines => some (rest, cx, cy, buf, lines)
  | id, n + 1, x :: y :: rest, cx, cy, buf, lines =>
    let cx' := cx + zz_dec x
    let cy' := cy + zz_dec y
    if id = 1 then
      decode_lines_pairs id n rest cx' cy' [⟨cx', cy'⟩]
        (if buf.isEmpty then lines else lines ++ [⟨buf⟩])
    else
      decode_lines_pairs id n rest cx' cy' (buf ++ [⟨cx', cy'⟩]) lines
  | _, _ + 1, _, _, _, _, _ => none

/-- Outer `while` loop of `decode_linestrings`.  At end of stream the
current coordinate buffer is NOT flushed — the Rust function simply
returns `lines`. -/
def decode_lines_loop :
    Nat → List Nat → Int → Int → List Point → List LineString → Option (List LineString)
  | _, [], _, _, _, lines => some lines
  | 0, _ :: _, _, _, _, _ => none
  | fuel + 1, c :: rest, cx, cy, buf, lines =>
    if (parse_command c).id = 1 ∨ (parse_command c).id = 2 then
      match decode_lines_pairs (parse_command c).id (parse_command c).count rest cx cy buf lines with
      | some (rest', cx', cy', buf', lines') => decode_lines_loop fuel rest' cx' cy' buf' lines'
      | none => none
    else decode_lines_loop fuel (c :: rest) cx cy buf lines

/-- Source `vector_tile_ops.rs`: `decode_linestrings`. -/
def decode_linestrings (fuel : Nat) (geometry : List Nat) : Option (List LineString) :=
  decode_lines_loop fuel geometry 0 0 [] []

/-- Inner pair loop of `decode_polygons` (1 = MoveTo restarts the
buffer without flushing, 2 = LineTo appends). -/
def decode_polys_pairs :
    Nat → Nat → List Nat → Int → Int → List Point → List LineString →
      Option (List Nat × Int × Int × List Point × List LineString)
  | _, 0, rest, cx, cy, buf, polys => some (rest, cx, cy, buf, polys)
  | id, n + 1, x :: y :: rest, cx, cy, buf, polys =>
    let cx' := cx + zz_dec x
    let cy' := cy + zz_dec y
    if id = 1 then
      decode_polys_pairs id n rest cx' cy' [⟨cx', cy'⟩] polys
    else
      decode_polys_pairs id n rest cx' cy' (buf ++ [⟨cx', cy'⟩]) polys
  | _, _ + 1, _, _, _, _, _ => none

/-- Outer `while` loop of `decode_polygons`; `ClosePath` (id 7) flushes
the buffer as a ring. -/
def decode_polys_loop :
    Nat → List Nat → Int → Int → List Point → List LineString → Option (List LineString)
  | _, [], _, _, _, polys => some polys
  | 0, _ :: _, _, _, _, _ => none
  | fuel + 1, c :: rest, cx, cy, buf, polys =>
    if (parse_command c).id = 1 ∨ (parse_command c).id = 2 then
      match decode_polys_pairs (parse_command c).id (parse_command c).count rest cx cy buf polys with
      | some (rest', cx', cy', buf', polys') => decode_polys_loop fuel rest' cx' cy' buf' polys'
      | none => none
    else if (parse_command c).id = 7 then
      decode_polys_loop fuel rest cx cy [] (polys ++ [⟨buf⟩])
    else decode_polys_loop fuel (c :: rest) cx cy buf polys

/-- Source `vector_tile_ops.rs`: `decode_polygons`. -/
def decode_polygons (fuel : Nat) (geometry : List Nat) : Option (List LineString) :=
  decode_polys_loop fuel geometry 0 0 [] []

/-- Delta-encode the points of one subpath after its first point,
threading the cursor; returns the emitted words and the final cursor. -/
def encode_line_tail : List Point → Int → Int → List Nat × Int × Int
  | [], cx, cy => ([], cx, cy)
  | p :: ps, cx, cy =>
    let r := encode_line_tail ps p.x p.y
    (zz_enc (p.x - cx) :: zz_enc (p.y - cy) :: r.1, r.2.1, r.2.2)

/-- The `for line in linestrings` loop of `encode_linestrings`; the
cursor is `none` until the first point of the feature is emitted
(absolute), and is threaded across subpaths afterwards. -/
def encode_lines_go : List LineString → Option (Int × Int) → List Nat
  | [], _ => []
  | line :: rest, c =>
    match line.points with
    | [] => encode_lines_go rest c
    | p0 :: ps =>
      let head := match c with
        | some (cx, cy) =>
          [encode_command ⟨1, 1⟩, zz_enc (p0.x - cx), zz_enc (p0.y - cy)]
        | none => [encode_command ⟨1, 1⟩, zz_enc p0.x, zz_enc p0.y]
      let tl := encode_line_tail ps p0.x p0.y
      head ++ [encode_command ⟨2, ps.length⟩] ++ tl.1 ++
        encode_lines_go rest (some (tl.2.1, tl.2.2))

/-- Source `vector_tile_ops.rs`: `encode_linestrings`. -/
def encode_linestrings (linestrings : List LineString) : List Nat :=
  if linestrings.isEmpty then [] else encode_lines_go linestrings none

/-!
Well-formedness of command streams.  `wf_pairs_from n l` walks the
stream with `n` payload words still owed to the previous command: each
`MoveTo`/`LineTo` command word must be followed by at least `2 * count`
coordinate words (the claim's hypothesis); `wf_cmds_from` additionally
restricts the command ids that may appear.
-/

/-- Payload-counting stream shape check (no restriction on command ids). -/
def wf_pairs_from : Nat → List Nat → Bool
  | 0, [] => true
  | _ + 1, [] => false
  | n + 1, _ :: rest => wf_pairs_from n rest
  | 0, c :: rest =>
    if (parse_command c).id = 1 ∨ (parse_command c).id = 2 then
      wf_pairs_from (2 * (parse_command c).count) rest
    else wf_pairs_from 0 rest

/-- Every `MoveTo`/`LineTo` command word in the stream is followed by at
least `2 * count` coordinate words. -/
def wf_pairs (geometry : List Nat) : Bool := wf_pairs_from 0 geometry

/-- Payload-counting stream shape check allowing only the listed
command ids. -/
def wf_cmds_from (allowed : List Nat) : Nat → List Nat → Bool
  | 0, [] => true
  | _ + 1, [] => false
  | n + 1, _ :: rest => wf_cmds_from allowed n rest
  | 0, c :: rest =>
    decide ((parse_command c).id ∈ allowed) &&
      (if (parse_command c).id = 1 ∨ (parse_command c).id = 2 then
        wf_cmds_from allowed (2 * (parse_command c).count) rest
      else wf_cmds_from allowed 0 rest)

/-- `wf_pairs` with all command ids drawn from `allowed`. -/
def wf_cmds (allowed : List Nat) (geometry : List Nat) : Bool :=
  wf_cmds_from allowed 0 geometry

/-- The points decoder loops forever (returns `none` for every fuel)
on the given stream. -/
def DecodePointsDiverges (geometry : List Nat) : Prop :=
  ∀ fuel : Nat, decode_points fuel geometry = none

/-!
Cohen-Sutherland polyline clipping, from `lineclip.rs`.  The bounding
box is the Rust 4-tuple `(x0, y0, x1, y1)` rendered as a structure.
The Rust inner `loop` is modelled with fuel (`none` on exhaustion); the
outer `for` walks the coordinate list.  `intersect`'s `panic!("No
intersection")` arm and its divisions by zero are unreachable from the
call sites (the edge argument always carries a bit of an outcode and
the two endpoints then straddle that edge); the embedding returns `a`
respectively `0` there, which no theorem below depends on.
-/

/-- Source `lineclip.rs`: `type BoundingBox = (i32, i32, i32, i32)`. -/
structure BBox where
  x0 : Int
  y0 : Int
  x1 : Int
  y1 : Int
deriving Repr, DecidableEq

/-- Source `lineclip.rs`: `bit_code` — outcode of a point relative to
the box: 1 = left, 2 = right, 4 = bottom, 8 = top. -/
def bit_code (coords : Point) (bbox : BBox) : Nat :=
  (if coords.x < bbox.x0 then 1 else if coords.x > bbox.x1 then 2 else 0) |||
  (if coords.y < bbox.y0 then 4 else if coords.y > bbox.y1 then 8 else 0)

/-- Source `lineclip.rs`: `intersect` a segment against one of the four
box edges, with `i32` division truncating toward zero (`Int.tdiv`). -/
def intersect (a b : Point) (edge : Nat) (bbox : BBox) : Point :=
  if edge &&& 8 ≠ 0 then
    ⟨a.x + Int.tdiv ((b.x - a.x) * (bbox.y1 - a.y)) (b.y - a.y), bbox.y1⟩
  else if edge &&& 4 ≠ 0 then
    ⟨a.x + Int.tdiv ((b.x - a.x) * (bbox.y0 - a.y)) (b.y - a.y), bbox.y0⟩
  else if edge &&& 2 ≠ 0 then
    ⟨bbox.x1, a.y + Int.tdiv ((b.y - a.y) * (bbox.x1 - a.x)) (b.x - a.x)⟩
  else if edge &&& 1 ≠ 0 then
    ⟨bbox.x0, a.y + Int.tdiv ((b.y - a.y) * (bbox.x0 - a.x)) (b.x - a.x)⟩
  else a

/-- The inner `loop` of `lineclip` for one segment: trivially accept,
trivially reject, or clamp the outside endpoint to an edge and retry.
`isLast` is `i == len - 1` (this is the final segment); its negation is
`i < len - 1`. -/
def clipSeg (bbox : BBox) :
    Nat → Point → Point → Nat → Nat → Nat → Bool → List Point → List LineString →
      Option (List Point × List LineString)
  | 0, _, _, _, _, _, _, _, _ => none
  | fuel + 1, a, b, code_a, code_b, last_code, isLast, part, result =>
    if code_a ||| code_b = 0 then
      if code_b ≠ last_code then
        if isLast then some (part ++ [a, b], result)
        else some ([], result ++ [⟨part ++ [a, b]⟩])
      else
        if isLast then some (part ++ [a, b], result)
        else some (part ++ [a], result)
    else if code_a &&& code_b ≠ 0 then some (part, result)
    else if 0 < code_a then
      clipSeg bbox fuel (intersect a b code_a bbox) b
        (bit_code (intersect a b code_a bbox) bbox) code_b last_code isLast part result
    else
      clipSeg bbox fuel a (intersect a b code_b bbox)
        code_a (bit_code (intersect a b code_b bbox) bbox) last_code isLast part result

/-- The outer `for i in 1..len` loop of `lineclip`, carrying the
previous original point `a` and its outcode, followed by the final
non-empty-part flush. -/
def lineclip_loop (bbox : BBox) (fuel : Nat) :
    Point → Nat → List Point → List Point → List LineString → Option (List LineString)
  | _, _, [], part, result =>
    if part.isEmpty then some result else some (result ++ [⟨part⟩])
  | a, code_a, b :: rest, part, result =>
    match clipSeg bbox fuel a b code_a (bit_code b bbox) (bit_code b bbox)
        rest.isEmpty part result with
    | some (part', result') => lineclip_loop bbox fuel b (bit_code b bbox) rest part' result'
    | none => none

/-- Source `lineclip.rs`: `lineclip`; reading `coords[0]` of an empty
input is a Rust panic, modelled as `none`. -/
def lineclip (fuel : Nat) (input : LineString) (bbox : BBox) : Option (List LineString) :=
  match input.points with
  | [] => none
  | p0 :: rest => lineclip_loop bbox fuel p0 (bit_code p0 bbox) rest [] []

lemma xor_two_pow_sub_one (w : Nat) :
    ∀ x : Nat, x < 2 ^ w → x ^^^ (2 ^ w - 1) = 2 ^ w - 1 - x := by
  induction w with
  | zero =>
    intro x hx
    interval_cases x
    decide
  | succ w ih =>
    intro x hx
    have h2 : 2 ^ (w + 1) = 2 * 2 ^ w := by rw [pow_succ]; ring
    have hp : 0 < 2 ^ w := Nat.pos_pow_of_pos w (by norm_num)
    have hdiv : (x ^^^ (2 ^ (w + 1) - 1)) / 2 = (x / 2) ^^^ (2 ^ w - 1) := by
      rw [Nat.xor_div_two]
      congr 1
      omega
    have hx2 : x / 2 < 2 ^ w := by omega
    rw [ih (x / 2) hx2] at hdiv
    have hmod : (x ^^^ (2 ^ (w + 1) - 1)) % 2 = (x + (2 ^ (w + 1) - 1)) % 2 :=
      Nat.xor_mod_two_eq
    have hsplit := Nat.div_add_mod (x ^^^ (2 ^ (w + 1) - 1)) 2
    omega

lemma xor_mask32 (x : Nat) (h : x < 4294967296) : x ^^^ 4294967295 = 4294967295 - x := by
  have h2 := xor_two_pow_sub_one 32 x (by omega)
  norm_num at h2
  omega

lemma zz_enc_eq (n : Int) (h1 : -2 ^ 31 ≤ n) (h2 : n < 2 ^ 31) :
    zz_enc n = if 0 ≤ n then (2 * n).toNat else (-2 * n - 1).toNat := by
  unfold zz_enc
  by_cases hn : n < 0
  · have hneg : ¬ (0 ≤ n) := by omega
    simp only [hn, if_true, hneg, if_false]
    have e2 : toU32 (-1) = 4294967295 := by decide
    have e1 : toU32 (n * 2) = (n * 2 + 4294967296).toNat := by
      unfold toU32
      congr 1
      omega
    rw [e1, e2, xor_mask32 _ (by omega)]
    omega
  · have hpos : (0 : Int) ≤ n := by omega
    simp only [hn, if_false, hpos, if_true]
    have e2 : toU32 0 = 0 := by decide
    rw [e2, Nat.xor_zero]
    unfold toU32
    have e1 : n * 2 % (2 ^ 32 : Int) = n * 2 := by omega
    rw [e1]
    omega

lemma zz_dec_eq (u : Nat) (h : u < 2 ^ 32) :
    zz_dec u = if u % 2 = 0 then ((u / 2 : Nat) : Int) else -((u / 2 : Nat) : Int) - 1 := by
  unfold zz_dec
  rw [Nat.and_one_is_mod, Nat.shiftRight_one]
  by_cases hp : u % 2 = 0
  · rw [hp]
    have e2 : toU32 (-((0 : Nat) : Int)) = 0 := by decide
    rw [e2, Nat.xor_zero]
    have hlt : u / 2 < 2 ^ 31 := by omega
    simp only [hp, if_true, toI32, hlt]
  · have hp1 : u % 2 = 1 := by omega
    rw [hp1]
    have e2 : toU32 (-((1 : Nat) : Int)) = 4294967295 := by decide
    rw [e2, xor_mask32 _ (by omega)]
    have hge : ¬ (4294967295 - u / 2 < 2 ^ 31) := by omega
    simp only [hp, if_false, toI32, hge]
    have hd : u / 2 < 2 ^ 31 := by omega
    omega

/-- Round trip `i32 → u32 → i32`. -/
lemma zz_dec_zz_enc (n : Int) (h1 : -2 ^ 31 ≤ n) (h2 : n < 2 ^ 31) :
    zz_dec (zz_enc n) = n := by
  rw [zz_enc_eq n h1 h2]
  by_cases hn : 0 ≤ n
  · simp only [hn, if_true]
    rw [zz_dec_eq ((2 * n).toNat) (by omega)]
    have hp : (2 * n).toNat % 2 = 0 := by omega
    simp only [hp, if_true]
    omega
  · simp only [hn, if_false]
    rw [zz_dec_eq ((-2 * n - 1).toNat) (by omega)]
    have hp : ¬ ((-2 * n - 1).toNat % 2 = 0) := by omega
    simp only [hp, if_false]
    omega

/-- Round trip `u32 → i32 → u32`. -/
lemma zz_enc_zz_dec (u : Nat) (h : u < 2 ^ 32) : zz_enc (zz_dec u) = u := by
  rw [zz_dec_eq u h]
  by_cases hp : u % 2 = 0
  · simp only [hp, if_true]
    rw [zz_enc_eq _ (by omega) (by omega)]
    have hn : (0 : Int) ≤ ((u / 2 : Nat) : Int) := by omega
    simp only [hn, if_true]
    omega
  · simp only [hp, if_false]
    rw [zz_enc_eq _ (by omega) (by omega)]
    have hn : ¬ ((0 : Int) ≤ -((u / 2 : Nat) : Int) - 1) := by omega
    simp only [hn, if_false]
    omega

/-- C7: Zig-zag round-trip: for every 32-bit signed integer `n`,
`zz_dec (zz_enc n) = n`, and for every 32-bit unsigned integer `u`,
`zz_enc (zz_dec u) = u`. -/
theorem zigzag_round_trip :
    (∀ n : Int, -2 ^ 31 ≤ n → n < 2 ^ 31 → zz_dec (zz_enc n) = n) ∧
    (∀ u : Nat, u < 2 ^ 32 → zz_enc (zz_dec u) = u) :=
  ⟨fun n h1 h2 => zz_dec_zz_enc n h1 h2, fun u h => zz_enc_zz_dec u h⟩

/-- Witness for C7 at `n = -7` and `u = 25`. -/
theorem zigzag_round_trip_witness :
    zz_dec (zz_enc (-7)) = -7 ∧ zz_enc (zz_dec 25) = 25 :=
  ⟨zigzag_round_trip.1 (-7) (by decide) (by decide),
   zigzag_round_trip.2 25 (by decide)⟩

lemma shiftRight_32_eq_zero (x k : Nat) (hx : x < 2 ^ 32) (hk : 32 ≤ k) : x >>> k = 0 := by
  rw [Nat.shiftRight_eq_div_pow]
  apply Nat.div_eq_of_lt
  calc x < 2 ^ 32 := hx
    _ ≤ 2 ^ k := Nat.pow_le_pow_right (by norm_num) hk

lemma tile_is_ancestor_refl (t : Tile) : tile_is_ancestor t t = true := by
  unfold tile_is_ancestor
  simp

lemma tile_is_ancestor_trans (t a b : Tile)
    (hx : t.1 < 2 ^ 32) (hy : t.2.1 < 2 ^ 32)
    (hta : tile_is_ancestor t a = true) (hab : tile_is_ancestor a b = true) :
    tile_is_ancestor t b = true := by
  unfold tile_is_ancestor at *
  by_cases hz1 : t.2.2 < a.2.2
  · simp [hz1] at hta
  by_cases hz2 : a.2.2 < b.2.2
  · simp [hz2] at hab
  simp only [hz1, if_false, Bool.and_eq_true, beq_iff_eq] at hta
  simp only [hz2, if_false, Bool.and_eq_true, beq_iff_eq] at hab
  have hz3 : ¬ (t.2.2 < b.2.2) := by omega
  simp only [hz3, if_false, Bool.and_eq_true, beq_iff_eq]
  have hd : t.2.2 - b.2.2 = (t.2.2 - a.2.2) + (a.2.2 - b.2.2) := by omega
  constructor
  · rw [← hab.1, ← hta.1]
    by_cases h1 : 32 ≤ t.2.2 - a.2.2
    · have h3 : 32 ≤ t.2.2 - b.2.2 := by omega
      simp only [h1, if_true, h3]
      by_cases h2 : 32 ≤ a.2.2 - b.2.2 <;> simp [h2]
    · simp only [h1, if_false]
      by_cases h2 : 32 ≤ a.2.2 - b.2.2
      · have h3 : 32 ≤ t.2.2 - b.2.2 := by omega
        simp only [h2, if_true, h3, if_true]
      · simp only [h2, if_false]
        by_cases h3 : 32 ≤ t.2.2 - b.2.2
        · simp only [h3, if_true]
          rw [← Nat.shiftRight_add]
          rw [← hd]
          exact (shiftRight_32_eq_zero t.1 _ hx h3).symm
        · simp only [h3, if_false]
          rw [← Nat.shiftRight_add, ← hd]
  · rw [← hab.2, ← hta.2]
    by_cases h1 : 32 ≤ t.2.2 - a.2.2
    · have h3 : 32 ≤ t.2.2 - b.2.2 := by omega
      simp only [h1, if_true, h3]
      by_cases h2 : 32 ≤ a.2.2 - b.2.2 <;> simp [h2]
    · simp only [h1, if_false]
      by_cases h2 : 32 ≤ a.2.2 - b.2.2
      · have h3 : 32 ≤ t.2.2 - b.2.2 := by omega
        simp only [h2, if_true, h3, if_true]
      · simp only [h2, if_false]
        by_cases h3 : 32 ≤ t.2.2 - b.2.2
        · simp only [h3, if_true]
          rw [← Nat.shiftRight_add, ← hd]
          exact (shiftRight_32_eq_zero t.2.1 _ hy h3).symm
        · simp only [h3, if_false]
          rw [← Nat.shiftRight_add, ← hd]

/-- C6: the ancestor predicate is reflexive; it is transitive for `u32`
tiles, including the guarded case where the zoom difference is 32 or
more, in which the shifted components become `0` and the predicate holds
exactly when the ancestor's `x` and `y` are `0`. -/
theorem tile_is_ancestor_partial_order :
    (∀ t : Tile, tile_is_ancestor t t = true) ∧
    (∀ t a b : Tile, t.1 < 2 ^ 32 → t.2.1 < 2 ^ 32 →
      tile_is_ancestor t a = true → tile_is_ancestor a b = true →
      tile_is_ancestor t b = true) ∧
    (∀ t a : Tile, a.2.2 ≤ t.2.2 → 32 ≤ t.2.2 - a.2.2 →
      (tile_is_ancestor t a = true ↔ a.1 = 0 ∧ a.2.1 = 0)) := by
  refine ⟨tile_is_ancestor_refl, tile_is_ancestor_trans, ?_⟩
  intro t a hz h32
  unfold tile_is_ancestor
  have hz' : ¬ (t.2.2 < a.2.2) := by omega
  simp only [hz', if_false, h32, if_true, Bool.and_eq_true, beq_iff_eq]
  constructor
  · rintro ⟨h1, h2⟩
    exact ⟨h1.symm, h2.symm⟩
  · rintro ⟨h1, h2⟩
    exact ⟨h1.symm, h2.symm⟩

/-- Witness for C6: transitivity applied at `t = (9, 7, 4)`,
`a = (4, 3, 3)`, `b = (1, 0, 1)`, and the deep-zoom case at
`t = (5, 6, 40)`, `a = (0, 0, 2)`. -/
theorem tile_is_ancestor_partial_order_witness :
    tile_is_ancestor ((9, 7, 4) : Tile) ((1, 0, 1) : Tile) = true ∧
    (tile_is_ancestor ((5, 6, 40) : Tile) ((0, 0, 2) : Tile) = true ↔
      (0 : Nat) = 0 ∧ (0 : Nat) = 0) := by
  constructor
  · exact tile_is_ancestor_partial_order.2.1 (9, 7, 4) (4, 3, 3) (1, 0, 1)
      (by decide) (by decide) (by decide) (by decide)
  · exact tile_is_ancestor_partial_order.2.2 (5, 6, 40) (0, 0, 2)
      (by decide) (by decide)

/-- C8: `flip_x` is an involution on tiles with `z ≤ 31` and `y < 2^z`. -/
theorem flip_x_involution (x y z : Nat) (hz : z ≤ 31) (hy : y < 2 ^ z) :
    flip_x (flip_x ((x, y, z) : Tile)) = ((x, y, z) : Tile) := by
  unfold flip_x
  simp only [Nat.one_shiftLeft]
  have : (2 : Nat) ^ z - 1 - (2 ^ z - 1 - y) = y := by omega
  rw [this]

/-- Witness for C8 at the tile `(3, 5, 4)`. -/
theorem flip_x_involution_witness :
    flip_x (flip_x ((3, 5, 4) : Tile)) = ((3, 5, 4) : Tile) :=
  flip_x_involution 3 5 4 (by decide) (by decide)

lemma split_tile_extent_recursive_bound :
    ∀ (fuel : Nat) (e : InputTileZoomExtent) (out : List InputTileZoomExtent),
      split_tile_extent_recursive fuel e = some out →
      ∀ x ∈ out, tile_count x ≤ EXTENT_CHUNK_TILE_COUNT := by
  intro fuel
  induction fuel with
  | zero =>
    intro e out hout
    simp [split_tile_extent_recursive] at hout
  | succ fuel ih =>
    intro e out hout x hx
    rw [split_tile_extent_recursive] at hout
    by_cases hc : tile_count e ≤ EXTENT_CHUNK_TILE_COUNT
    · simp only [hc, if_true, Option.some.injEq] at hout
      subst hout
      rcases List.mem_singleton.mp hx with rfl
      exact hc
    · simp only [hc, if_false] at hout
      cases hs : split_tile_extent e with
      | nil => rw [hs] at hout; simp at hout
      | cons a rest =>
        cases rest with
        | nil =>
          rw [hs] at hout
          exact ih a out hout x hx
        | cons b rest2 =>
          cases rest2 with
          | nil =>
            rw [hs] at hout
            cases ha : split_tile_extent_recursive fuel a with
            | none => simp [ha] at hout
            | some ra =>
              cases hb : split_tile_extent_recursive fuel b with
              | none => simp [ha, hb] at hout
              | some rb =>
                simp only [ha, hb, Option.some.injEq] at hout
                subst hout
                rcases List.mem_append.mp hx with h | h
                · exact ih a ra ha x h
                · exact ih b rb hb x h
          | cons c rest3 => rw [hs] at hout; simp at hout

/-- C3: every extent emitted by the recursive splitter has
`tile_count ≤ 32768`, except (vacuously) when its shorter side has
length at most 2 — in fact the splitter only ever emits extents whose
tile count is within the bound, so the exception clause is never
needed. -/
theorem split_tile_extent_recursive_invariant
    (fuel : Nat) (e : InputTileZoomExtent) (out : List InputTileZoomExtent)
    (hout : split_tile_extent_recursive fuel e = some out) :
    ∀ x ∈ out, tile_count x ≤ 32768 ∨
      min (sub64 x.max_x x.min_x + 1) (sub64 x.max_y x.min_y + 1) ≤ 2 := by
  intro x hx
  left
  exact split_tile_extent_recursive_bound fuel e out hout x hx

/-- Witness for C3: a 256 by 256 zoom-0 extent splits (with fuel 2) into
two 256 by 128 chunks; the first emitted chunk is within the bound. -/
theorem split_tile_extent_recursive_invariant_witness :
    tile_count ⟨0, 0, 255, 0, 127⟩ ≤ 32768 ∨
      min (sub64 255 0 + 1) (sub64 127 0 + 1) ≤ 2 :=
  split_tile_extent_recursive_invariant 2 ⟨0, 0, 255, 0, 255⟩
    [⟨0, 0, 255, 0, 127⟩, ⟨0, 0, 255, 128, 255⟩] (by decide)
    ⟨0, 0, 255, 0, 127⟩ (by decide)

/-- C2 (code bug evaluation): the payload `[0x1f, 0x00]` does not start
with the gzip magic `0x1f 0x8b`, yet `maybe_compress` passes it through
unchanged for every gzip encoder, because the guard uses `&&` on the
two byte mismatches instead of `||`. -/
theorem maybe_compress_misses_magic :
    ∀ gzip : List Nat → List Nat,
      maybe_compress gzip [31, 0] = some [31, 0] ∧ ¬ ([31, 0] ∈ [[31, 139]]) := by
  intro gzip
  constructor
  · rfl
  · decide

lemma wrap32_eq (n : Int) (h1 : -2 ^ 31 ≤ n) (h2 : n < 2 ^ 31) : wrap32 n = n := by
  unfold wrap32
  omega

lemma zz_dec_range (u : Nat) (h : u < 2 ^ 32) :
    -2 ^ 31 ≤ zz_dec u ∧ zz_dec u < 2 ^ 31 := by
  rw [zz_dec_eq u h]
  by_cases hp : u % 2 = 0 <;> simp only [hp, if_true, if_false] <;> omega

lemma scale_geometry_general (c x y : Nat) (rest : List Nat) (ne rx ry : Nat)
    (hc : (parse_command c).id = 1) (hx : x < 2 ^ 32) (hy : y < 2 ^ 32)
    (hrx : ne * rx < 2 ^ 31) (hry : ne * ry < 2 ^ 31)
    (hbx : -2 ^ 31 ≤ zz_dec x - (ne * rx : Nat))
    (hby : -2 ^ 31 ≤ zz_dec y - (ne * ry : Nat)) :
    scale_geometry (c :: x :: y :: rest) ne rx ry =
      some (true, c :: zz_enc (zz_dec x - (ne * rx : Nat)) ::
        zz_enc (zz_dec y - (ne * ry : Nat)) :: rest) := by
  unfold scale_geometry
  simp only [hc, ne_eq, not_true_eq_false, if_false, ite_false, reduceCtorEq]
  have hmx : ne * rx % 2 ^ 32 = ne * rx := by omega
  have hmy : ne * ry % 2 ^ 32 = ne * ry := by omega
  rw [hmx, hmy]
  have htx : toI32 (ne * rx) = (ne * rx : Nat) := by unfold toI32; rw [if_pos (by omega)]
  have hty : toI32 (ne * ry) = (ne * ry : Nat) := by unfold toI32; rw [if_pos (by omega)]
  rw [htx, hty]
  have hrangex := zz_dec_range x hx
  have hrangey := zz_dec_range y hy
  rw [wrap32_eq _ hbx (by omega), wrap32_eq _ hby (by omega)]

/-- C5: `scale_geometry` rewrites only the first coordinate pair of a
stream beginning with MoveTo to the zig-zag encoding of
`(ox - new_extent * rel_x, oy - new_extent * rel_y)` and leaves every
other word unchanged; with `rel_x = rel_y = 0` the stream is unchanged;
and on `[MoveTo 1, enc 25, enc 17]` with `new_extent = 1024` and
`rel_x = 1` the first-point `x` becomes `enc (25 - 1024)` and `y` is
unchanged. -/
theorem scale_geometry_rewrite :
    (∀ (c x y : Nat) (rest : List Nat) (ne rx ry : Nat),
      (parse_command c).id = 1 → x < 2 ^ 32 → y < 2 ^ 32 →
      ne * rx < 2 ^ 31 → ne * ry < 2 ^ 31 →
      -2 ^ 31 ≤ zz_dec x - (ne * rx : Nat) → -2 ^ 31 ≤ zz_dec y - (ne * ry : Nat) →
      scale_geometry (c :: x :: y :: rest) ne rx ry =
        some (true, c :: zz_enc (zz_dec x - (ne * rx : Nat)) ::
          zz_enc (zz_dec y - (ne * ry : Nat)) :: rest)) ∧
    (∀ (c x y : Nat) (rest : List Nat) (ne : Nat),
      (parse_command c).id = 1 → x < 2 ^ 32 → y < 2 ^ 32 →
      scale_geometry (c :: x :: y :: rest) ne 0 0 = some (true, c :: x :: y :: rest)) ∧
    scale_geometry [9, zz_enc 25, zz_enc 17] 1024 1 0 =
      some (true, [9, zz_enc (25 - 1024), zz_enc 17]) := by
  refine ⟨scale_geometry_general, ?_, by decide⟩
  intro c x y rest ne hc hx hy
  have h := scale_geometry_general c x y rest ne 0 0 hc hx hy
    (by omega) (by omega)
    (by have := zz_dec_range x hx; simp; omega)
    (by have := zz_dec_range y hy; simp; omega)
  simp only [Nat.mul_zero, Nat.cast_zero, sub_zero] at h
  rw [h, zz_enc_zz_dec x hx, zz_enc_zz_dec y hy]

/-- Witness for C5: the general rewrite applied at the stream
`[9, enc 25, enc 17]` with `new_extent = 1024`, `rel_x = 1`, `rel_y = 0`. -/
theorem scale_geometry_rewrite_witness :
    scale_geometry [9, zz_enc 25, zz_enc 17] 1024 1 0 =
      some (true, 9 :: zz_enc (zz_dec (zz_enc 25) - (1024 * 1 : Nat)) ::
        zz_enc (zz_dec (zz_enc 17) - (1024 * 0 : Nat)) :: []) :=
  scale_geometry_rewrite.1 9 (zz_enc 25) (zz_enc 17) [] 1024 1 0
    (by decide) (by decide) (by decide) (by decide) (by decide) (by decide) (by decide)

/-- C1 (code bug evaluation): encoding the single linestring
`[(0,0), (1,1)]` yields the stream `[MoveTo 1, 0, 0, LineTo 1, 2, 2]`,
and decoding that stream back yields the empty list — the decoder never
flushes the final subpath at end of stream, so the round trip loses the
last linestring instead of returning the input. -/
theorem decode_encode_linestrings_drops_last :
    encode_linestrings [⟨[⟨0, 0⟩, ⟨1, 1⟩]⟩] = [9, 0, 0, 10, 2, 2] ∧
    decode_linestrings 7 (encode_linestrings [⟨[⟨0, 0⟩, ⟨1, 1⟩]⟩]) = some [] := by
  constructor
  · decide
  · decide

lemma decode_points_pairs_total (allowed : List Nat) :
    ∀ (n : Nat) (rest : List Nat) (cx cy : Int) (acc : List Point),
      wf_cmds_from allowed (2 * n) rest = true →
      ∃ rest' cx' cy' acc',
        decode_points_pairs n rest cx cy acc = some (rest', cx', cy', acc') ∧
        wf_cmds_from allowed 0 rest' = true ∧ rest'.length + 2 * n = rest.length := by
  intro n
  induction n with
  | zero =>
    intro rest cx cy acc hwf
    exact ⟨rest, cx, cy, acc, rfl, hwf, by omega⟩
  | succ n ih =>
    intro rest cx cy acc hwf
    match rest with
    | [] => simp [wf_cmds_from] at hwf
    | [x] =>
      rw [show 2 * (n + 1) = (2 * n + 1) + 1 by omega] at hwf
      rw [wf_cmds_from] at hwf
      simp [wf_cmds_from] at hwf
    | x :: y :: rest2 =>
      rw [show 2 * (n + 1) = (2 * n + 1) + 1 by omega] at hwf
      rw [wf_cmds_from, wf_cmds_from] at hwf
      rcases ih rest2 (cx + zz_dec x) (cy + zz_dec y)
          (acc ++ [⟨cx + zz_dec x, cy + zz_dec y⟩]) hwf with
        ⟨rest', cx', cy', acc', heq, hwf', hlen⟩
      exact ⟨rest', cx', cy', acc', by rw [decode_points_pairs]; exact heq, hwf',
        by simp at hlen ⊢; omega⟩

lemma decode_points_loop_total :
    ∀ (fuel : Nat) (rest : List Nat) (cx cy : Int) (acc : List Point),
      wf_cmds_from [1] 0 rest = true → rest.length < fuel →
      ∃ r, decode_points_loop fuel rest cx cy acc = some r := by
  intro fuel
  induction fuel with
  | zero => intro rest cx cy acc _ hlen; omega
  | succ fuel ih =>
    intro rest cx cy acc hwf hlen
    match rest with
    | [] => exact ⟨acc, rfl⟩
    | c :: rest2 =>
      rw [wf_cmds_from] at hwf
      simp only [Bool.and_eq_true, decide_eq_true_eq, List.mem_singleton] at hwf
      obtain ⟨hid, hwf⟩ := hwf
      simp only [hid, if_true, or_true, true_or, if_pos] at hwf
      rcases decode_points_pairs_total [1] (parse_command c).count rest2 cx cy acc hwf with
        ⟨rest', cx', cy', acc', heq, hwf', hlen'⟩
      have : ∃ r, decode_points_loop fuel rest' cx' cy' acc' = some r := by
        apply ih rest' cx' cy' acc' hwf'
        simp at hlen
        omega
      rcases this with ⟨r, hr⟩
      refine ⟨r, ?_⟩
      rw [decode_points_loop]
      simp only [hid, if_true, heq]
      exact hr

lemma decode_lines_pairs_total (allowed : List Nat) (id : Nat) :
    ∀ (n : Nat) (rest : List Nat) (cx cy : Int) (buf : List Point) (acc : List LineString),
      wf_cmds_from allowed (2 * n) rest = true →
      ∃ rest' cx' cy' buf' acc',
        decode_lines_pairs id n rest cx cy buf acc = some (rest', cx', cy', buf', acc') ∧
        wf_cmds_from allowed 0 rest' = true ∧ rest'.length + 2 * n = rest.length := by
  intro n
  induction n with
  | zero =>
    intro rest cx cy buf acc hwf
    exact ⟨rest, cx, cy, buf, acc, rfl, hwf, by omega⟩
  | succ n ih =>
    intro rest cx cy buf acc hwf
    match rest with
    | [] => simp [wf_cmds_from] at hwf
    | [x] =>
      rw [show 2 * (n + 1) = (2 * n + 1) + 1 by omega] at hwf
      rw [wf_cmds_from] at hwf
      simp [wf_cmds_from] at hwf
    | x :: y :: rest2 =>
      rw [show 2 * (n + 1) = (2 * n + 1) + 1 by omega] at hwf
      rw [wf_cmds_from, wf_cmds_from] at hwf
      by_cases hid : id = 1
      · subst hid
        rcases ih rest2 (cx + zz_dec x) (cy + zz_dec y) [⟨cx + zz_dec x, cy + zz_dec y⟩]
            (if buf.isEmpty then acc else acc ++ [⟨buf⟩]) hwf with
          ⟨rest', cx', cy', buf', acc', heq, hwf', hlen⟩
        refine ⟨rest', cx', cy', buf', acc', ?_, hwf', by simp at hlen ⊢; omega⟩
        rw [decode_lines_pairs]
        simp only [if_true]
        exact heq
      · rcases ih rest2 (cx + zz_dec x) (cy + zz_dec y)
            (buf ++ [⟨cx + zz_dec x, cy + zz_dec y⟩]) acc hwf with
          ⟨rest', cx', cy', buf', acc', heq, hwf', hlen⟩
        refine ⟨rest', cx', cy', buf', acc', ?_, hwf', by simp at hlen ⊢; omega⟩
        rw [decode_lines_pairs]
        simp only [hid, if_false]
        exact heq

lemma decode_lines_loop_total :
    ∀ (fuel : Nat) (rest : List Nat) (cx cy : Int) (buf : List Point) (acc : List LineString),
      wf_cmds_from [1, 2] 0 rest = true → rest.length < fuel →
      ∃ r, decode_lines_loop fuel rest cx cy buf acc = some r := by
  intro fuel
  induction fuel with
  | zero => intro rest cx cy buf acc _ hlen; omega
  | succ fuel ih =>
    intro rest cx cy buf acc hwf hlen
    match rest with
    | [] => exact ⟨acc, rfl⟩
    | c :: rest2 =>
      rw [wf_cmds_from] at hwf
      simp only [Bool.and_eq_true, decide_eq_true_eq, List.mem_cons,
        List.mem_singleton, List.not_mem_nil, or_false] at hwf
      obtain ⟨hid, hwf⟩ := hwf
      have hcond : (parse_command c).id = 1 ∨ (parse_command c).id = 2 := hid
      simp only [hcond, if_pos] at hwf
      rcases decode_lines_pairs_total [1, 2] (parse_command c).id (parse_command c).count
          rest2 cx cy buf acc hwf with
        ⟨rest', cx', cy', buf', acc', heq, hwf', hlen'⟩
      have : ∃ r, decode_lines_loop fuel rest' cx' cy' buf' acc' = some r := by
        apply ih rest' cx' cy' buf' acc' hwf'
        simp at hlen
        omega
      rcases this with ⟨r, hr⟩
      refine ⟨r, ?_⟩
      rw [decode_lines_loop]
      simp only [hcond, if_pos, heq]
      exact hr

lemma decode_polys_pairs_total (allowed : List Nat) (id : Nat) :
    ∀ (n : Nat) (rest : List Nat) (cx cy : Int) (buf : List Point) (acc : List LineString),
      wf_cmds_from allowed (2 * n) rest = true →
      ∃ rest' cx' cy' buf' acc',
        decode_polys_pairs id n rest cx cy buf acc = some (rest', cx', cy', buf', acc') ∧
        wf_cmds_from allowed 0 rest' = true ∧ rest'.length + 2 * n = rest.length := by
  intro n
  induction n with
  | zero =>
    intro rest cx cy buf acc hwf
    exact ⟨rest, cx, cy, buf, acc, rfl, hwf, by omega⟩
  | succ n ih =>
    intro rest cx cy buf acc hwf
    match rest with
    | [] => simp [wf_cmds_from] at hwf
    | [x] =>
      rw [show 2 * (n + 1) = (2 * n + 1) + 1 by omega] at hwf
      rw [wf_cmds_from] at hwf
      simp [wf_cmds_from] at hwf
    | x :: y :: rest2 =>
      rw [show 2 * (n + 1) = (2 * n + 1) + 1 by omega] at hwf
      rw [wf_cmds_from, wf_cmds_from] at hwf
      by_cases hid : id = 1
      · subst hid
        rcases ih rest2 (cx + zz_dec x) (cy + zz_dec y) [⟨cx + zz_dec x, cy + zz_dec y⟩]
            acc hwf with ⟨rest', cx', cy', buf', acc', heq, hwf', hlen⟩
        refine ⟨rest', cx', cy', buf', acc', ?_, hwf', by simp at hlen ⊢; omega⟩
        rw [decode_polys_pairs]
        simp only [if_true]
        exact heq
      · rcases ih rest2 (cx + zz_dec x) (cy + zz_dec y)
            (buf ++ [⟨cx + zz_dec x, cy + zz_dec y⟩]) acc hwf with
          ⟨rest', cx', cy', buf', acc', heq, hwf', hlen⟩
        refine ⟨rest', cx', cy', buf', acc', ?_, hwf', by simp at hlen ⊢; omega⟩
        rw [decode_polys_pairs]
        simp only [hid, if_false]
        exact heq

lemma decode_polys_loop_total :
    ∀ (fuel : Nat) (rest : List Nat) (cx cy : Int) (buf : List Point) (acc : List LineString),
      wf_cmds_from [1, 2, 7] 0 rest = true → rest.length < fuel →
      ∃ r, decode_polys_loop fuel rest cx cy buf acc = some r := by
  intro fuel
  induction fuel with
  | zero => intro rest cx cy buf acc _ hlen; omega
  | succ fuel ih =>
    intro rest cx cy buf acc hwf hlen
    match rest with
    | [] => exact ⟨acc, rfl⟩
    | c :: rest2 =>
      rw [wf_cmds_from] at hwf
      simp only [Bool.and_eq_true, decide_eq_true_eq, List.mem_cons,
        List.not_mem_nil, or_false] at hwf
      obtain ⟨hid, hwf⟩ := hwf
      by_cases hcond : (parse_command c).id = 1 ∨ (parse_command c).id = 2
      · simp only [hcond, if_pos] at hwf
        rcases decode_polys_pairs_total [1, 2, 7] (parse_command c).id (parse_command c).count
            rest2 cx cy buf acc hwf with
          ⟨rest', cx', cy', buf', acc', heq, hwf', hlen'⟩
        have : ∃ r, decode_polys_loop fuel rest' cx' cy' buf' acc' = some r := by
          apply ih rest' cx' cy' buf' acc' hwf'
          simp at hlen
          omega
        rcases this with ⟨r, hr⟩
        refine ⟨r, ?_⟩
        rw [decode_polys_loop]
        simp only [hcond, if_pos, heq]
        exact hr
      · have h7 : (parse_command c).id = 7 := by
          rcases hid with h | h | h
          · exact absurd (Or.inl h) hcond
          · exact absurd (Or.inr h) hcond
          · exact h
        simp only [hcond, if_neg, if_false] at hwf
        have : ∃ r, decode_polys_loop fuel rest2 cx cy [] (acc ++ [⟨buf⟩]) = some r :=
          ih rest2 cx cy [] (acc ++ [⟨buf⟩]) hwf (by simp at hlen; omega)
        rcases this with ⟨r, hr⟩
        refine ⟨r, ?_⟩
        rw [decode_polys_loop]
        simp only [hcond, if_neg, h7, if_pos, if_true, if_false]
        exact hr

lemma decode_points_diverges_closepath : DecodePointsDiverges [15] := by
  intro fuel
  unfold decode_points
  induction fuel with
  | zero => rfl
  | succ n ih =>
    rw [decode_points_loop]
    rw [if_neg (by decide)]
    exact ih

/-- C10 counterexample: the stream `[15]` (a single `ClosePath` command,
id 7) contains no MoveTo/LineTo command word at all, so the claim's
hypothesis holds vacuously, yet `decode_points` never terminates on it:
the Rust loop does not advance the index for command ids it does not
handle, so the decoder returns `none` for every fuel. -/
theorem decoder_totality_counterexample :
    wf_pairs [15] = true ∧ DecodePointsDiverges [15] :=
  ⟨by decide, decode_points_diverges_closepath⟩

/-- C10 (amended): if every command id in the stream is one the decoder
handles (1 for points; 1, 2 for linestrings; 1, 2, 7 for polygons) and
every MoveTo/LineTo command word is followed by at least `2 * count`
coordinate words, then the decoder terminates without indexing out of
bounds; and on the truncated stream `[9]` (MoveTo with count 1 and no
following words) each decoder indexes past the end of the buffer. -/
theorem decoder_totality_amended :
    (∀ g : List Nat, wf_cmds [1] g = true →
      ∃ r, decode_points (g.length + 1) g = some r) ∧
    (∀ g : List Nat, wf_cmds [1, 2] g = true →
      ∃ r, decode_linestrings (g.length + 1) g = some r) ∧
    (∀ g : List Nat, wf_cmds [1, 2, 7] g = true →
      ∃ r, decode_polygons (g.length + 1) g = some r) ∧
    (∀ fuel : Nat, decode_points fuel [9] = none) ∧
    (∀ fuel : Nat, decode_linestrings fuel [9] = none) ∧
    (∀ fuel : Nat, decode_polygons fuel [9] = none) := by
  refine ⟨?_, ?_, ?_, ?_, ?_, ?_⟩
  · intro g hwf
    exact decode_points_loop_total (g.length + 1) g 0 0 [] hwf (by omega)
  · intro g hwf
    exact decode_lines_loop_total (g.length + 1) g 0 0 [] [] hwf (by omega)
  · intro g hwf
    exact decode_polys_loop_total (g.length + 1) g 0 0 [] [] hwf (by omega)
  · intro fuel
    cases fuel with
    | zero => rfl
    | succ n => rfl
  · intro fuel
    cases fuel with
    | zero => rfl
    | succ n => rfl
  · intro fuel
    cases fuel with
    | zero => rfl
    | succ n => rfl

/-- Witness for C10 (amended): the three positive parts applied at the
well-formed streams `[9, 2, 4]` (one MoveTo pair), `[9, 2, 4, 10, 2, 2]`
(MoveTo then LineTo), and `[9, 2, 4, 15]` (MoveTo then ClosePath). -/
theorem decoder_totality_amended_witness :
    (∃ r, decode_points ([9, 2, 4].length + 1) [9, 2, 4] = some r) ∧
    (∃ r, decode_linestrings ([9, 2, 4, 10, 2, 2].length + 1) [9, 2, 4, 10, 2, 2] = some r) ∧
    (∃ r, decode_polygons ([9, 2, 4, 15].length + 1) [9, 2, 4, 15] = some r) :=
  ⟨decoder_totality_amended.1 [9, 2, 4] (by decide),
   decoder_totality_amended.2.1 [9, 2, 4, 10, 2, 2] (by decide),
   decoder_totality_amended.2.2.1 [9, 2, 4, 15] (by decide)⟩

lemma lor_eq_zero_iff (a b : Nat) : a ||| b = 0 ↔ a = 0 ∧ b = 0 := by
  constructor
  · intro h
    have ha : a = 0 := by
      apply Nat.eq_of_testBit_eq
      intro i
      have hb := congrArg (fun n => n.testBit i) h
      simp only [Nat.testBit_or, Nat.zero_testBit, Bool.or_eq_false_iff] at hb
      simp [hb.1]
    have hbz : b = 0 := by
      apply Nat.eq_of_testBit_eq
      intro i
      have hb := congrArg (fun n => n.testBit i) h
      simp only [Nat.testBit_or, Nat.zero_testBit, Bool.or_eq_false_iff] at hb
      simp [hb.2]
    exact ⟨ha, hbz⟩
  · rintro ⟨rfl, rfl⟩
    rfl

lemma bit_code_eq (p : Point) (bb : BBox) :
    bit_code p bb =
      (if p.x < bb.x0 then 1 else if p.x > bb.x1 then 2 else 0) +
      (if p.y < bb.y0 then 4 else if p.y > bb.y1 then 8 else 0) := by
  unfold bit_code
  split_ifs <;> rfl

lemma bit_code_zero_iff (p : Point) (bb : BBox) :
    bit_code p bb = 0 ↔
      (bb.x0 ≤ p.x ∧ p.x ≤ bb.x1 ∧ bb.y0 ≤ p.y ∧ p.y ≤ bb.y1) := by
  rw [bit_code_eq]
  split_ifs <;> norm_num <;> omega

lemma clipSeg_invariant (bb : BBox) :
    ∀ (fuel : Nat) (a b : Point) (code_a code_b last_code : Nat) (isLast : Bool)
      (part : List Point) (result : List LineString)
      (part' : List Point) (result' : List LineString),
      code_a = bit_code a bb → code_b = bit_code b bb →
      (∀ p ∈ part, bit_code p bb = 0) →
      (∀ ls ∈ result, ∀ p ∈ ls.points, bit_code p bb = 0) →
      clipSeg bb fuel a b code_a code_b last_code isLast part result = some (part', result') →
      (∀ p ∈ part', bit_code p bb = 0) ∧
      (∀ ls ∈ result', ∀ p ∈ ls.points, bit_code p bb = 0) := by
  intro fuel
  induction fuel with
  | zero =>
    intro a b code_a code_b last_code isLast part result part' result' _ _ _ _ h
    simp [clipSeg] at h
  | succ fuel ih =>
    intro a b code_a code_b last_code isLast part result part' result' hca hcb hpart hres h
    rw [clipSeg] at h
    by_cases hacc : code_a ||| code_b = 0
    · rw [if_pos hacc] at h
      have hz := (lor_eq_zero_iff _ _).mp hacc
      have hza : bit_code a bb = 0 := by rw [← hca]; exact hz.1
      have hzb : bit_code b bb = 0 := by rw [← hcb]; exact hz.2
      have hab : ∀ p ∈ part ++ [a, b], bit_code p bb = 0 := by
        intro p hp
        rcases List.mem_append.mp hp with hp | hp
        · exact hpart p hp
        · simp only [List.mem_cons, List.not_mem_nil, or_false] at hp
          rcases hp with rfl | rfl
          · exact hza
          · exact hzb
      have ha1 : ∀ p ∈ part ++ [a], bit_code p bb = 0 := by
        intro p hp
        rcases List.mem_append.mp hp with hp | hp
        · exact hpart p hp
        · rw [List.mem_singleton] at hp
          subst hp
          exact hza
      have hres' : ∀ ls ∈ result ++ [(⟨part ++ [a, b]⟩ : LineString)],
          ∀ p ∈ ls.points, bit_code p bb = 0 := by
        intro ls hls p hp
        rcases List.mem_append.mp hls with hls | hls
        · exact hres ls hls p hp
        · rw [List.mem_singleton] at hls
          subst hls
          exact hab p hp
      have hemp : ∀ p ∈ ([] : List Point), bit_code p bb = 0 := by
        intro p hp
        simp at hp
      split_ifs at h <;>
        simp only [Option.some.injEq, Prod.mk.injEq] at h <;>
        obtain ⟨h1, h2⟩ := h <;>
        subst h1 <;> subst h2 <;>
        first
          | exact ⟨hab, hres⟩
          | exact ⟨hemp, hres'⟩
          | exact ⟨ha1, hres⟩
    · rw [if_neg hacc] at h
      by_cases hrej : code_a &&& code_b ≠ 0
      · rw [if_pos hrej] at h
        simp only [Option.some.injEq, Prod.mk.injEq] at h
        obtain ⟨h1, h2⟩ := h
        subst h1
        subst h2
        exact ⟨hpart, hres⟩
      · rw [if_neg hrej] at h
        by_cases hcapos : 0 < code_a
        · rw [if_pos hcapos] at h
          exact ih _ b _ code_b last_code isLast part result part' result'
            rfl hcb hpart hres h
        · rw [if_neg hcapos] at h
          exact ih a _ code_a _ last_code isLast part result part' result'
            hca rfl hpart hres h

lemma lineclip_loop_invariant (bb : BBox) (fuel : Nat) :
    ∀ (pts : List Point) (a : Point) (code_a : Nat)
      (part : List Point) (result : List LineString) (out : List LineString),
      code_a = bit_code a bb →
      (∀ p ∈ part, bit_code p bb = 0) →
      (∀ ls ∈ result, ∀ p ∈ ls.points, bit_code p bb = 0) →
      lineclip_loop bb fuel a code_a pts part result = some out →
      ∀ ls ∈ out, ∀ p ∈ ls.points, bit_code p bb = 0 := by
  intro pts
  induction pts with
  | nil =>
    intro a code_a part result out _ hpart hres h
    rw [lineclip_loop] at h
    by_cases hp : part.isEmpty
    · rw [if_pos hp] at h
      simp only [Option.some.injEq] at h
      subst h
      exact hres
    · rw [if_neg hp] at h
      simp only [Option.some.injEq] at h
      subst h
      intro ls hls p hpm
      rcases List.mem_append.mp hls with hls | hls
      · exact hres ls hls p hpm
      · rw [List.mem_singleton] at hls
        subst hls
        exact hpart p hpm
  | cons b rest ihp =>
    intro a code_a part result out hca hpart hres h
    rw [lineclip_loop] at h
    cases hseg : clipSeg bb fuel a b code_a (bit_code b bb) (bit_code b bb)
        rest.isEmpty part result with
    | none => rw [hseg] at h; exact absurd h (by simp)
    | some pr =>
      rw [hseg] at h
      obtain ⟨part', result'⟩ := pr
      have hinv := clipSeg_invariant bb fuel a b code_a (bit_code b bb) (bit_code b bb)
        rest.isEmpty part result part' result' hca rfl hpart hres hseg
      exact ihp b (bit_code b bb) part' result' out rfl hinv.1 hinv.2 h

/-- C9: every point of every polyline returned by `lineclip` lies
inside the inclusive bounding box (equivalently its outcode via
`bit_code` is 0). -/
theorem lineclip_output_in_bbox
    (fuel : Nat) (input : LineString) (bbox : BBox) (out : List LineString)
    (h : lineclip fuel input bbox = some out) :
    ∀ ls ∈ out, ∀ p ∈ ls.points,
      bbox.x0 ≤ p.x ∧ p.x ≤ bbox.x1 ∧ bbox.y0 ≤ p.y ∧ p.y ≤ bbox.y1 ∧
      bit_code p bbox = 0 := by
  intro ls hls p hp
  have hz : bit_code p bbox = 0 := by
    unfold lineclip at h
    cases hpts : input.points with
    | nil => rw [hpts] at h; exact absurd h (by simp)
    | cons p0 rest =>
      rw [hpts] at h
      exact lineclip_loop_invariant bbox fuel rest p0 (bit_code p0 bbox) [] [] out rfl
        (by intro q hq; simp at hq) (by intro l hl; simp at hl) h ls hls p hp
  have := (bit_code_zero_iff p bbox).mp hz
  exact ⟨this.1, this.2.1, this.2.2.1, this.2.2.2, hz⟩

/-- Witness for C9: the diagonal polyline `[(10,-10), (5,5), (10,10)]`
clipped to `(3,3,6,6)` yields `[[(6,3), (5,5), (6,6)]]`; the point
`(5,5)` of the output lies inside the box. -/
theorem lineclip_output_in_bbox_witness :
    (3 : Int) ≤ (5 : Int) ∧ (5 : Int) ≤ 6 ∧ (3 : Int) ≤ (5 : Int) ∧ (5 : Int) ≤ 6 ∧
      bit_code ⟨5, 5⟩ ⟨3, 3, 6, 6⟩ = 0 :=
  lineclip_output_in_bbox 10 ⟨[⟨10, -10⟩, ⟨5, 5⟩, ⟨10, 10⟩]⟩ ⟨3, 3, 6, 6⟩
    [⟨[⟨6, 3⟩, ⟨5, 5⟩, ⟨6, 6⟩]⟩] (by decide)
    ⟨[⟨6, 3⟩, ⟨5, 5⟩, ⟨6, 6⟩]⟩ (by decide) ⟨5, 5⟩ (by decide)

/-- C4: `lineclip` on the concrete 13-point polyline from the source
test, against the box `(0, 0, 30, 30)`, returns exactly the four
polylines of the test, in order. -/
theorem lineclip_concrete_thirteen_points :
    lineclip 100
      ⟨[⟨-10, 10⟩, ⟨10, 10⟩, ⟨10, -10⟩, ⟨20, -10⟩, ⟨20, 10⟩, ⟨40, 10⟩, ⟨40, 20⟩,
        ⟨20, 20⟩, ⟨20, 40⟩, ⟨10, 40⟩, ⟨10, 20⟩, ⟨5, 20⟩, ⟨-10, 20⟩]⟩
      ⟨0, 0, 30, 30⟩ =
    some [⟨[⟨0, 10⟩, ⟨10, 10⟩, ⟨10, 0⟩]⟩,
          ⟨[⟨20, 0⟩, ⟨20, 10⟩, ⟨30, 10⟩]⟩,
          ⟨[⟨30, 20⟩, ⟨20, 20⟩, ⟨20, 30⟩]⟩,
          ⟨[⟨10, 30⟩, ⟨10, 20⟩, ⟨5, 20⟩, ⟨0, 20⟩]⟩] := by
  decide
